import Mathlib

/-!
Shallow embedding of the QUBO-construction notebooks:
the coefficient-map (defaultdict) accumulation, the graph-partition
encoder, the max-cut encoder, the partition result interpreter, the
knapsack encoder/interpreter, and the toy penalty-method problem.
-/

namespace Dwave

/-- A QUBO coefficient map: the `defaultdict(int)` `Q`, modelled as a total
function from index pairs to integer coefficients, absent pairs being 0. -/
def QMap : Type := ℕ × ℕ → ℤ

/-- The freshly initialised `Q = defaultdict(int)`: every pair maps to 0. -/
def emptyQ : QMap := fun _ => 0

/-- One `Q[k] += c` update. -/
def addQ (Q : QMap) (k : ℕ × ℕ) (c : ℤ) : QMap :=
  fun k' => if k' = k then Q k' + c else Q k'

/-- Run a list of `Q[k] += c` updates left to right. -/
def applyUpdates (Q : QMap) (l : List ((ℕ × ℕ) × ℤ)) : QMap :=
  l.foldl (fun Q kc => addQ Q kc.1 kc.2) Q

/-- The contribution of one update to the entry at key `k`. -/
def contrib (k : ℕ × ℕ) (kc : (ℕ × ℕ) × ℤ) : ℤ :=
  if kc.1 = k then kc.2 else 0

theorem addQ_apply (Q : QMap) (k k' : ℕ × ℕ) (c : ℤ) :
    addQ Q k c k' = Q k' + (if k = k' then c else 0) := by
  unfold addQ
  by_cases h : k' = k
  · simp [h]
  · have h' : ¬ k = k' := fun hk => h hk.symm
    simp [h, h']

/-- Accumulation: the final entry at `k` is the initial entry plus the sum of
all contributions whose key is `k`. -/
theorem applyUpdates_apply (l : List ((ℕ × ℕ) × ℤ)) (Q : QMap) (k : ℕ × ℕ) :
    applyUpdates Q l k = Q k + (l.map (contrib k)).sum := by
  induction l generalizing Q with
  | nil => simp [applyUpdates]
  | cons kc l ih =>
    show applyUpdates (addQ Q kc.1 kc.2) l k = _
    rw [ih, addQ_apply]
    simp [contrib]
    ring

/-- The keys a list of updates ever touches: the dictionary's key set. -/
def keysOf (l : List ((ℕ × ℕ) × ℤ)) : List (ℕ × ℕ) :=
  (l.map Prod.fst).dedup

/-- `itertools.combinations(range(n), 2)`: the pairs `(i, j)` with
`i < j < n`, listed in the order the iterator yields them. -/
def combinations (n : ℕ) : List (ℕ × ℕ) :=
  (List.range n).flatMap fun i => ((List.range n).drop (i + 1)).map fun j => (i, j)

/-- The `for u, v in G.edges` loop of the graph-partition cell:
`Q[(u,u)] += 1; Q[(v,v)] += 1; Q[(u,v)] += -2`. -/
def partitionObjUpdates (edges : List (ℕ × ℕ)) : List ((ℕ × ℕ) × ℤ) :=
  edges.flatMap fun e => [((e.1, e.1), 1), ((e.2, e.2), 1), ((e.1, e.2), -2)]

/-- The two penalty loops of the graph-partition cell:
`Q[(i,i)] += gamma*(1-len(G.nodes))` for each node, then
`Q[(i,j)] += 2*gamma` for each pair from `combinations(G.nodes, 2)`. -/
def penaltyUpdates (n : ℕ) (gamma : ℤ) : List ((ℕ × ℕ) × ℤ) :=
  ((List.range n).map fun i => ((i, i), gamma * (1 - (n : ℤ))))
    ++ ((combinations n).map fun p => (p, 2 * gamma))

/-- All updates of the graph-partition encoder, in program order. -/
def partitionUpdates (n : ℕ) (edges : List (ℕ × ℕ)) (gamma : ℤ) :
    List ((ℕ × ℕ) × ℤ) :=
  partitionObjUpdates edges ++ penaltyUpdates n gamma

/-- The coefficient map built by the graph-partition cell. -/
def Q_partition (n : ℕ) (edges : List (ℕ × ℕ)) (gamma : ℤ) : QMap :=
  applyUpdates emptyQ (partitionUpdates n edges gamma)

/-- The `for i, j in G.edges` loop of the max-cut cell:
`Q[(i,i)] += -1; Q[(j,j)] += -1; Q[(i,j)] += 2`. -/
def maxcutUpdates (edges : List (ℕ × ℕ)) : List ((ℕ × ℕ) × ℤ) :=
  edges.flatMap fun e => [((e.1, e.1), -1), ((e.2, e.2), -1), ((e.1, e.2), 2)]

/-- The coefficient map built by the max-cut cell. -/
def Q_maxcut (edges : List (ℕ × ℕ)) : QMap :=
  applyUpdates emptyQ (maxcutUpdates edges)

/-- The QUBO energy of a list of updates at an assignment: evaluating the
accumulated coefficient map, entry by contributing term, at `x`. -/
def energyUpd (l : List ((ℕ × ℕ) × ℤ)) (x : ℕ → ℤ) : ℤ :=
  (l.map fun kc => kc.2 * (x kc.1.1 * x kc.1.2)).sum

/-- The interpreter's recomputation:
`num_cut_edges += sample[u] + sample[v] - 2*sample[u]*sample[v]` over edges. -/
def num_cut_edges (edges : List (ℕ × ℕ)) (x : ℕ → ℤ) : ℤ :=
  (edges.map fun e => x e.1 + x e.2 - 2 * (x e.1 * x e.2)).sum

/-- `sum(sample)` over the nodes `0..n-1`. -/
def sampleSum (n : ℕ) (x : ℕ → ℤ) : ℤ :=
  ((List.range n).map x).sum

/-- The number of variables set to 1 in the sample. -/
def onesCount (n : ℕ) (x : ℕ → ℤ) : ℕ :=
  (List.range n).countP fun i => decide (x i = 1)

/-- An assignment taking only the binary values 0 and 1. -/
def IsBinary (x : ℕ → ℤ) : Prop :=
  ∀ i, x i = 0 ∨ x i = 1

/-- The partition interpreter: accept the sample and report the recomputed
cut-edge count when `sum(sample)` is `floor(n/2)` or `ceil(n/2)`,
otherwise report an invalid partition (`none`). -/
def interpretPartition (n : ℕ) (edges : List (ℕ × ℕ)) (x : ℕ → ℤ) : Option ℤ :=
  if sampleSum n x = ((n / 2 : ℕ) : ℤ) ∨ sampleSum n x = (((n + 1) / 2 : ℕ) : ℤ) then
    some (num_cut_edges edges x)
  else
    none

/-- The knapsack objective is a linear model: `obj.set_linear(i, -values[i])`
for each item index `i`. -/
def knapsackObjLinear (values : List ℤ) : List (ℕ × ℤ) :=
  (List.range values.length).map fun i => (i, -(values.getD i 0))

/-- Evaluating a linear binary model at an assignment. -/
def evalLinear (l : List (ℕ × ℤ)) (x : ℕ → ℤ) : ℤ :=
  (l.map fun ic => ic.2 * x ic.1).sum

/-- One ranked sample row of the constrained sampler's output:
an assignment over the items, its energy, and the feasibility flag
the sampler attaches. -/
structure SampleRow where
  sample : List ℤ
  energy : ℤ
  isFeasible : Bool

/-- `[key for key, val in best.sample.items() if val == 1.0]`. -/
def selectedItems (s : List ℤ) : List ℕ :=
  (List.range s.length).filter fun i => decide (s.getD i 0 = 1)

/-- The result-parsing tail of `knapsack_dwave`: filter to feasible rows,
raise `No feasible solution found` when none remain, otherwise take the
first (lowest-energy) feasible row and compute the selected items with
their total value and weight. -/
def parseKnapsackOutput (values weights : List ℤ) (sampleset : List SampleRow) :
    Except String (ℤ × ℤ × List ℕ × ℤ) :=
  let feasible := sampleset.filter fun row => row.isFeasible
  match feasible with
  | [] => Except.error "No feasible solution found"
  | best :: _ =>
    let sel := selectedItems best.sample
    Except.ok
      ((sel.map fun i => values.getD i 0).sum,
       (sel.map fun i => weights.getD i 0).sum,
       sel,
       best.energy)

/-- The toy problem's penalty weight `A = 4`. -/
def toyA : ℤ := 4

/-- The toy problem's literal updates:
`Q[(1,1)]=1-A; Q[(2,2)]=1-A; Q[(3,3)]=1; Q[(1,2)]=2*A`. -/
def toyUpdates : List ((ℕ × ℕ) × ℤ) :=
  [((1, 1), 1 - toyA), ((2, 2), 1 - toyA), ((3, 3), 1), ((1, 2), 2 * toyA)]

/-- The literal coefficient map assigned in the getting-started notebook. -/
def ex0Updates : List ((ℕ × ℕ) × ℤ) :=
  [((1, 1), -2), ((2, 2), -2), ((1, 2), 2), ((3, 3), -3), ((1, 3), 2),
   ((4, 4), -3), ((2, 4), 2), ((3, 4), 2), ((5, 5), -2), ((3, 5), 2), ((4, 5), 2)]

/-- The 5-node reference graph `[(1,2),(1,3),(2,4),(3,4),(3,5),(4,5)]`. -/
def edges5 : List (ℕ × ℕ) :=
  [(1, 2), (1, 3), (2, 4), (3, 4), (3, 5), (4, 5)]

/-- The constraint-penalty portion of the partition coefficient map,
evaluated at an assignment. -/
def penaltyValue (n : ℕ) (gamma : ℤ) (x : ℕ → ℤ) : ℤ :=
  energyUpd (penaltyUpdates n gamma) x

/-- The degree of node `i` in an edge list. -/
def degree (edges : List (ℕ × ℕ)) (i : ℕ) : ℕ :=
  edges.countP fun e => decide (e.1 = i ∨ e.2 = i)

section ListLemmas

theorem sum_map_add {α : Type} (l : List α) (f g : α → ℤ) :
    (l.map fun a => f a + g a).sum = (l.map f).sum + (l.map g).sum := by
  induction l with
  | nil => simp
  | cons a l ih => simp [ih]; ring

theorem sum_map_neg {α : Type} (l : List α) (g : α → ℤ) :
    (l.map fun a => -g a).sum = -(l.map g).sum := by
  induction l with
  | nil => simp
  | cons a l ih => simp [ih]; ring

theorem sum_map_flatMap {α β : Type} (l : List α) (f : α → List β) (g : β → ℤ) :
    ((l.flatMap f).map g).sum = (l.map fun a => ((f a).map g).sum).sum := by
  induction l with
  | nil => simp
  | cons a l ih => simp [List.flatMap_cons, ih]

theorem sum_map_ite_count {α : Type} [DecidableEq α] (l : List α) (b : α) (c : ℤ) :
    (l.map fun a => if a = b then c else 0).sum = c * l.count b := by
  induction l with
  | nil => simp
  | cons a l ih =>
    by_cases h : a = b
    · subst h
      simp [List.count_cons, ih]
      ring
    · simp [h, List.count_cons, ih, Ne.symm h]

theorem sum_map_ite_countP {α : Type} (l : List α) (p : α → Prop) [DecidablePred p] :
    (l.map fun a => if p a then (1 : ℤ) else 0).sum
      = ((l.countP fun a => decide (p a) : ℕ) : ℤ) := by
  induction l with
  | nil => simp
  | cons a l ih =>
    by_cases h : p a
    · simp [List.countP_cons, h, ih]
      ring
    · simp [List.countP_cons, h, ih]

theorem sum_range_ite (n j : ℕ) (f : ℕ → ℤ) :
    ((List.range n).map fun i => if i = j then f i else 0).sum
      = if j < n then f j else 0 := by
  induction n with
  | zero => simp
  | succ n ih =>
    rw [List.range_succ, List.map_append, List.sum_append, ih]
    simp only [List.map_cons, List.map_nil, List.sum_cons, List.sum_nil, add_zero]
    rcases lt_trichotomy j n with h | h | h
    · rw [if_pos h, if_neg (by omega), if_pos (by omega)]
      ring
    · subst h
      rw [if_neg (by omega), if_pos rfl, if_pos (by omega)]
      ring
    · rw [if_neg (by omega), if_neg (by omega), if_neg (by omega)]
      ring

theorem indicator_sum (n M : ℕ) :
    ((List.range n).map fun i => if i < M then (1 : ℤ) else 0).sum
      = ((min M n : ℕ) : ℤ) := by
  induction n with
  | zero => simp
  | succ n ih =>
    rw [List.range_succ, List.map_append, List.sum_append, ih]
    simp only [List.map_cons, List.map_nil, List.sum_cons, List.sum_nil, add_zero]
    split_ifs with h <;> push_cast <;> omega

end ListLemmas

section CombinationsLemmas

theorem combinations_succ_sum (n : ℕ) (f : ℕ × ℕ → ℤ) :
    ((combinations (n + 1)).map f).sum
      = ((combinations n).map f).sum + ((List.range n).map fun i => f (i, n)).sum := by
  unfold combinations
  rw [sum_map_flatMap, sum_map_flatMap]
  nth_rewrite 2 [List.range_succ]
  rw [List.map_append, List.sum_append]
  have hlast : ((((List.range (n + 1)).drop (n + 1)).map fun j => ((n, j) : ℕ × ℕ)).map f).sum
      = 0 := by
    have : (List.range (n + 1)).drop (n + 1) = [] := by
      apply List.drop_eq_nil_of_le
      simp
    rw [this]
    simp
  have key : ∀ i ∈ List.range n,
      ((((List.range (n + 1)).drop (i + 1)).map fun j => ((i, j) : ℕ × ℕ)).map f).sum
        = ((((List.range n).drop (i + 1)).map fun j => ((i, j) : ℕ × ℕ)).map f).sum
          + f (i, n) := by
    intro i hi
    rw [List.mem_range] at hi
    rw [List.range_succ, List.drop_append_of_le_length (by simpa using hi)]
    simp
  rw [List.map_congr_left key, sum_map_add]
  simp only [List.map_cons, List.map_nil, List.sum_cons, List.sum_nil, add_zero, hlast]

theorem combinations_ite_sum (n : ℕ) (k : ℕ × ℕ) (c : ℤ) :
    ((combinations n).map fun p => if p = k then c else 0).sum
      = if k.1 < k.2 ∧ k.2 < n then c else 0 := by
  obtain ⟨a, b⟩ := k
  dsimp only
  induction n with
  | zero =>
    simp only [combinations, List.range_zero, List.flatMap_nil, List.map_nil, List.sum_nil]
    rw [if_neg (by omega)]
  | succ n ih =>
    rw [combinations_succ_sum, ih]
    by_cases hb : b = n
    · have hfun : ∀ i : ℕ, (if ((i, n) : ℕ × ℕ) = (a, b) then c else 0)
          = if i = a then c else 0 := by
        intro i
        by_cases h : i = a
        · rw [if_pos (by rw [h, hb]), if_pos h]
        · rw [if_neg (fun hh => h (congrArg Prod.fst hh)), if_neg h]
      have h2 : ((List.range n).map fun i => if ((i, n) : ℕ × ℕ) = (a, b) then c else 0).sum
          = if a < n then c else 0 := by
        rw [List.map_congr_left (fun i _ => hfun i)]
        exact sum_range_ite n a (fun _ => c)
      rw [h2]
      split_ifs <;> omega
    · have hz : ((List.range n).map fun i => if ((i, n) : ℕ × ℕ) = (a, b) then c else 0).sum
          = 0 := by
        have hfun : ∀ i ∈ List.range n, (if ((i, n) : ℕ × ℕ) = (a, b) then c else 0) = 0 := by
          intro i _
          exact if_neg (fun hh => hb (congrArg Prod.snd hh).symm)
        rw [List.map_congr_left hfun]
        simp
      rw [hz]
      split_ifs <;> omega

end CombinationsLemmas

section PenaltyClosedForm

theorem binary_sq {x : ℕ → ℤ} (hx : IsBinary x) (i : ℕ) : x i * x i = x i := by
  rcases hx i with h | h <;> rw [h] <;> ring

theorem sampleSum_succ (n : ℕ) (x : ℕ → ℤ) :
    sampleSum (n + 1) x = sampleSum n x + x n := by
  unfold sampleSum
  rw [List.range_succ]
  simp

/-- Twice the sum `Σ_{i<j<n} x_i x_j` in terms of the coordinate sum,
for a binary assignment. -/
theorem two_mul_comb_sum (n : ℕ) (x : ℕ → ℤ) (hx : IsBinary x) :
    2 * ((combinations n).map fun p => x p.1 * x p.2).sum
      = sampleSum n x * sampleSum n x - sampleSum n x := by
  induction n with
  | zero =>
    simp [combinations, sampleSum]
  | succ n ih =>
    rw [combinations_succ_sum, sampleSum_succ]
    have hxx : ((List.range n).map fun i => x i * x n).sum = sampleSum n x * x n :=
      List.sum_map_mul_right (List.range n) x (x n)
    have hxn := binary_sq hx n
    rw [mul_add, ih, hxx]
    linear_combination -hxn

/-- The diagonal penalty contributions sum to `gamma*(1-n)` times the
coordinate sum, for a binary assignment. -/
theorem diag_penalty_sum (n : ℕ) (gamma : ℤ) (x : ℕ → ℤ) (hx : IsBinary x) :
    ((List.range n).map fun i => gamma * (1 - (n : ℤ)) * (x i * x i)).sum
      = gamma * (1 - (n : ℤ)) * sampleSum n x := by
  have h : ∀ i ∈ List.range n,
      gamma * (1 - (n : ℤ)) * (x i * x i) = gamma * (1 - (n : ℤ)) * x i := by
    intro i _
    rw [binary_sq hx i]
  rw [List.map_congr_left h]
  exact List.sum_map_mul_left (List.range n) x (gamma * (1 - (n : ℤ)))

/-- The constraint-penalty portion of the partition coefficient map evaluates
to `gamma * (s^2 - n*s)` where `s` is the coordinate sum. -/
theorem penaltyValue_closed (n : ℕ) (gamma : ℤ) (x : ℕ → ℤ) (hx : IsBinary x) :
    penaltyValue n gamma x
      = gamma * (sampleSum n x * sampleSum n x - (n : ℤ) * sampleSum n x) := by
  unfold penaltyValue penaltyUpdates energyUpd
  rw [List.map_append, List.sum_append, List.map_map, List.map_map]
  have hdiag : ((fun kc : (ℕ × ℕ) × ℤ => kc.2 * (x kc.1.1 * x kc.1.2))
        ∘ fun i => ((i, i), gamma * (1 - (n : ℤ))))
      = fun i => gamma * (1 - (n : ℤ)) * (x i * x i) := rfl
  have hcomb : ((fun kc : (ℕ × ℕ) × ℤ => kc.2 * (x kc.1.1 * x kc.1.2))
        ∘ fun p : ℕ × ℕ => (p, 2 * gamma))
      = fun p : ℕ × ℕ => 2 * gamma * (x p.1 * x p.2) := rfl
  rw [hdiag, hcomb, diag_penalty_sum n gamma x hx]
  have hmul : ((combinations n).map fun p : ℕ × ℕ => 2 * gamma * (x p.1 * x p.2)).sum
      = 2 * gamma * ((combinations n).map fun p : ℕ × ℕ => x p.1 * x p.2).sum :=
    List.sum_map_mul_left (combinations n) _ (2 * gamma)
  rw [hmul]
  have h2 := two_mul_comb_sum n x hx
  linear_combination gamma * h2

end PenaltyClosedForm

/-- Key identity: the penalty portion plus the dropped constant
`gamma*(n/2)^2` is `gamma*(s - n/2)^2`, for even `n` and binary `x`. -/
theorem penaltyValue_shift (n : ℕ) (gamma : ℤ) (x : ℕ → ℤ)
    (hn : n % 2 = 0) (hx : IsBinary x) :
    penaltyValue n gamma x + gamma * ((n / 2 : ℕ) : ℤ) ^ 2
      = gamma * (sampleSum n x - ((n / 2 : ℕ) : ℤ)) ^ 2 := by
  have hm : (n : ℤ) = 2 * ((n / 2 : ℕ) : ℤ) := by omega
  rw [penaltyValue_closed n gamma x hx]
  linear_combination -(gamma * sampleSum n x) * hm

/-- C1: for any penalty weight `gamma > 0` and any even `n`, the
constraint-penalty portion of the partition coefficient map attains its
global minimum over binary assignments exactly at the assignments whose
coordinate sum is `n/2`; assignments violating the equal-size constraint
never achieve the minimum penalty value. -/
theorem C1_partition_penalty_minimum (n : ℕ) (gamma : ℤ)
    (hgamma : 0 < gamma) (hn : n % 2 = 0) :
    (∀ x, IsBinary x →
        -(gamma * ((n / 2 : ℕ) : ℤ) ^ 2) ≤ penaltyValue n gamma x)
    ∧ (∀ x, IsBinary x →
        (penaltyValue n gamma x = -(gamma * ((n / 2 : ℕ) : ℤ) ^ 2)
          ↔ sampleSum n x = ((n / 2 : ℕ) : ℤ)))
    ∧ (∃ x, IsBinary x ∧ sampleSum n x = ((n / 2 : ℕ) : ℤ)) := by
  refine ⟨?_, ?_, ?_⟩
  · intro x hx
    have hs := penaltyValue_shift n gamma x hn hx
    nlinarith [mul_nonneg hgamma.le (sq_nonneg (sampleSum n x - ((n / 2 : ℕ) : ℤ)))]
  · intro x hx
    have hs := penaltyValue_shift n gamma x hn hx
    constructor
    · intro h
      have h0 : gamma * (sampleSum n x - ((n / 2 : ℕ) : ℤ)) ^ 2 = 0 := by
        linarith
      rcases mul_eq_zero.mp h0 with h' | h'
      · exact absurd h' hgamma.ne'
      · have h'' := pow_eq_zero_iff two_ne_zero |>.mp h'
        exact sub_eq_zero.mp h''
    · intro h
      rw [h, sub_self] at hs
      linarith
  · refine ⟨fun i => if i < n / 2 then 1 else 0, fun i => ?_, ?_⟩
    · by_cases h : i < n / 2 <;> simp [h]
    · show ((List.range n).map fun i => if i < n / 2 then (1 : ℤ) else 0).sum = _
      rw [indicator_sum, min_eq_left (Nat.div_le_self n 2)]

/-- C1 witness at `n = 4`, `gamma = 1`. -/
theorem C1_witness :
    (0 : ℤ) < 1 ∧ 4 % 2 = 0
    ∧ (∃ x, IsBinary x ∧ sampleSum 4 x = ((4 / 2 : ℕ) : ℤ)) :=
  ⟨by norm_num, by norm_num,
   (C1_partition_penalty_minimum 4 1 (by norm_num) (by norm_num)).2.2⟩

/-- C2 counterexample: at `n = 4`, `gamma = 1` and the binary assignment
putting the first two nodes in the subset, the equal-size constraint holds
(`sum = n/2 = 2`) yet the constraint-penalty sub-expression of the built
coefficient map evaluates to `-4`, not `0`, refuting the claim as stated. -/
theorem C2_counterexample :
    IsBinary (fun i => if i < 2 then (1 : ℤ) else 0)
    ∧ sampleSum 4 (fun i => if i < 2 then (1 : ℤ) else 0) = ((4 / 2 : ℕ) : ℤ)
    ∧ penaltyValue 4 1 (fun i => if i < 2 then (1 : ℤ) else 0) = -4 := by
  refine ⟨fun i => ?_, by decide, by decide⟩
  by_cases h : i < 2 <;> simp [h]

/-- C2 amended: the constraint-penalty sub-expression of the built map,
after adding back the constant `gamma*(n/2)^2` the encoder dropped,
evaluates to exactly 0 when the coordinate sum is `n/2` (n even) and to a
strictly positive value otherwise (for `gamma > 0`); equivalently the raw
sub-expression evaluates to `-gamma*(n/2)^2` rather than 0 at satisfying
assignments. -/
theorem C2_penalty_shifted (n : ℕ) (gamma : ℤ) (x : ℕ → ℤ)
    (hgamma : 0 < gamma) (hn : n % 2 = 0) (hx : IsBinary x) :
    (sampleSum n x = ((n / 2 : ℕ) : ℤ)
        → penaltyValue n gamma x + gamma * ((n / 2 : ℕ) : ℤ) ^ 2 = 0)
    ∧ (sampleSum n x ≠ ((n / 2 : ℕ) : ℤ)
        → 0 < penaltyValue n gamma x + gamma * ((n / 2 : ℕ) : ℤ) ^ 2) := by
  have hs := penaltyValue_shift n gamma x hn hx
  constructor
  · intro h
    rw [hs, h]
    simp
  · intro h
    rw [hs]
    have h1 : sampleSum n x - ((n / 2 : ℕ) : ℤ) ≠ 0 := sub_ne_zero.mpr h
    have h2 : 0 < (sampleSum n x - ((n / 2 : ℕ) : ℤ)) ^ 2 :=
      lt_of_le_of_ne (sq_nonneg _) (Ne.symm (pow_ne_zero 2 h1))
    exact mul_pos hgamma h2

/-- C2 witness at `n = 4`, `gamma = 1`, with the satisfying assignment. -/
theorem C2_witness :
    penaltyValue 4 1 (fun i => if i < 2 then (1 : ℤ) else 0)
      + 1 * ((4 / 2 : ℕ) : ℤ) ^ 2 = 0 :=
  (C2_penalty_shifted 4 1 (fun i => if i < 2 then (1 : ℤ) else 0)
      (by norm_num) (by norm_num)
      (fun i => by by_cases h : i < 2 <;> simp [h])).1 (by decide)

/-- The objective portion of the partition coefficient map reproduces the
cut-edge count at every binary assignment. -/
theorem partitionObj_energy (edges : List (ℕ × ℕ)) (x : ℕ → ℤ) (hx : IsBinary x) :
    energyUpd (partitionObjUpdates edges) x = num_cut_edges edges x := by
  unfold energyUpd partitionObjUpdates num_cut_edges
  rw [sum_map_flatMap]
  apply congrArg
  apply List.map_congr_left
  intro e _
  simp only [List.map_cons, List.map_nil, List.sum_cons, List.sum_nil, add_zero]
  linear_combination binary_sq hx e.1 + binary_sq hx e.2

/-- The max-cut coefficient map's energy is the negated cut-edge count at
every binary assignment. -/
theorem maxcut_energy (edges : List (ℕ × ℕ)) (x : ℕ → ℤ) (hx : IsBinary x) :
    energyUpd (maxcutUpdates edges) x = -num_cut_edges edges x := by
  unfold energyUpd maxcutUpdates num_cut_edges
  rw [sum_map_flatMap]
  have key : ∀ e ∈ edges,
      (([(((e.1, e.1) : ℕ × ℕ), (-1 : ℤ)), ((e.2, e.2), -1), ((e.1, e.2), 2)].map
          fun kc => kc.2 * (x kc.1.1 * x kc.1.2)).sum)
        = -(x e.1 + x e.2 - 2 * (x e.1 * x e.2)) := by
    intro e _
    simp only [List.map_cons, List.map_nil, List.sum_cons, List.sum_nil, add_zero]
    linear_combination -binary_sq hx e.1 - binary_sq hx e.2
  rw [List.map_congr_left key]
  exact sum_map_neg edges _

/-- C3 counterexample: for the single-edge graph `[(0,1)]` and the binary
assignment cutting that edge, the recomputed cut count is `1` but the
energy of the max-cut coefficient map is `-1`: the cut count does not
equal the max-cut objective energy, refuting the claim as stated. -/
theorem C3_counterexample :
    IsBinary (fun i => if i = 0 then (1 : ℤ) else 0)
    ∧ num_cut_edges [(0, 1)] (fun i => if i = 0 then (1 : ℤ) else 0) = 1
    ∧ energyUpd (maxcutUpdates [(0, 1)]) (fun i => if i = 0 then (1 : ℤ) else 0) = -1 := by
  refine ⟨fun i => ?_, by decide, by decide⟩
  by_cases h : i = 0 <;> simp [h]

/-- C3 amended: for every graph and every binary assignment, the sum over
edges of `x_i + x_j - 2*x_i*x_j` equals the energy of the objective portion
of the partition coefficient map, and equals the negation of the energy of
the max-cut coefficient map (the notebook accordingly prints the cut size
as `-1*E`). -/
theorem C3_objective_energy (edges : List (ℕ × ℕ)) (x : ℕ → ℤ) (hx : IsBinary x) :
    num_cut_edges edges x = energyUpd (partitionObjUpdates edges) x
    ∧ num_cut_edges edges x = -energyUpd (maxcutUpdates edges) x := by
  refine ⟨(partitionObj_energy edges x hx).symm, ?_⟩
  rw [maxcut_energy edges x hx, neg_neg]

/-- C3 witness on the single-edge graph. -/
theorem C3_witness :
    num_cut_edges [(0, 1)] (fun i => if i = 0 then (1 : ℤ) else 0)
      = energyUpd (partitionObjUpdates [(0, 1)]) (fun i => if i = 0 then (1 : ℤ) else 0)
    ∧ num_cut_edges [(0, 1)] (fun i => if i = 0 then (1 : ℤ) else 0)
      = -energyUpd (maxcutUpdates [(0, 1)]) (fun i => if i = 0 then (1 : ℤ) else 0) :=
  C3_objective_energy _ _ (fun i => by by_cases h : i = 0 <;> simp [h])

theorem onesCount_succ (n : ℕ) (x : ℕ → ℤ) :
    onesCount (n + 1) x = onesCount n x + (if x n = 1 then 1 else 0) := by
  unfold onesCount
  rw [List.range_succ, List.countP_append]
  simp [List.countP_cons]

/-- For a binary sample, `sum(sample)` is the number of ones. -/
theorem sampleSum_eq_onesCount (n : ℕ) (x : ℕ → ℤ) (hx : IsBinary x) :
    sampleSum n x = ((onesCount n x : ℕ) : ℤ) := by
  induction n with
  | zero => simp [sampleSum, onesCount]
  | succ n ih =>
    rw [sampleSum_succ, onesCount_succ, ih]
    rcases hx n with h | h <;> simp [h]

/-- C5: the partition interpreter reports a valid partition together with
the recomputed cut count exactly when the number of ones is `floor(n/2)` or
`ceil(n/2)`, and reports an invalid partition (no cut count) otherwise; at
`n = 41`, ones-counts 20 and 21 are accepted while 19 and 22 are rejected. -/
theorem C5_partition_interpreter (n : ℕ) (edges : List (ℕ × ℕ)) (x : ℕ → ℤ)
    (hx : IsBinary x) :
    (interpretPartition n edges x = some (num_cut_edges edges x)
        ↔ onesCount n x = n / 2 ∨ onesCount n x = (n + 1) / 2)
    ∧ (interpretPartition n edges x = none
        ↔ ¬(onesCount n x = n / 2 ∨ onesCount n x = (n + 1) / 2))
    ∧ (n = 41 → (onesCount n x = 20 ∨ onesCount n x = 21)
        → interpretPartition n edges x = some (num_cut_edges edges x))
    ∧ (n = 41 → (onesCount n x = 19 ∨ onesCount n x = 22)
        → interpretPartition n edges x = none) := by
  have hs := sampleSum_eq_onesCount n x hx
  have hcond : (sampleSum n x = ((n / 2 : ℕ) : ℤ)
        ∨ sampleSum n x = (((n + 1) / 2 : ℕ) : ℤ))
      ↔ (onesCount n x = n / 2 ∨ onesCount n x = (n + 1) / 2) := by
    rw [hs]
    exact or_congr Nat.cast_inj Nat.cast_inj
  have hiff1 : interpretPartition n edges x = some (num_cut_edges edges x)
      ↔ (onesCount n x = n / 2 ∨ onesCount n x = (n + 1) / 2) := by
    unfold interpretPartition
    split_ifs with h
    · exact iff_of_true rfl (hcond.mp h)
    · exact iff_of_false (by simp) (fun hc => h (hcond.mpr hc))
  have hiff2 : interpretPartition n edges x = none
      ↔ ¬(onesCount n x = n / 2 ∨ onesCount n x = (n + 1) / 2) := by
    unfold interpretPartition
    split_ifs with h
    · exact iff_of_false (by simp) (fun hc => hc (hcond.mp h))
    · exact iff_of_true rfl (fun hc => h (hcond.mpr hc))
  refine ⟨hiff1, hiff2, ?_, ?_⟩
  · intro hn hc
    subst hn
    apply hiff1.mpr
    rcases hc with h | h
    · left
      rw [h]
    · right
      rw [h]
  · intro hn hc
    subst hn
    apply hiff2.mpr
    intro hcon
    rcases hc with h | h <;> rcases hcon with h' | h' <;> rw [h] at h' <;> norm_num at h'

/-- C5 witness: a 41-node sample with 20 ones is accepted. -/
theorem C5_witness :
    interpretPartition 41 [] (fun i => if i < 20 then (1 : ℤ) else 0)
      = some (num_cut_edges [] (fun i => if i < 20 then (1 : ℤ) else 0)) :=
  (C5_partition_interpreter 41 [] (fun i => if i < 20 then (1 : ℤ) else 0)
      (fun i => by by_cases h : i < 20 <;> simp [h])).2.2.1 rfl
    (Or.inl (by decide))

theorem range_indicator_sum (k : ℕ) (g : ℕ → ℤ) (S : List ℕ)
    (hS : S.Nodup) (hlt : ∀ i ∈ S, i < k) :
    ((List.range k).map fun i => if i ∈ S then g i else 0).sum = (S.map g).sum := by
  induction S with
  | nil => simp
  | cons a S ih =>
    have hna : a ∉ S := (List.nodup_cons.mp hS).1
    have hkey : ∀ i ∈ List.range k,
        (if i ∈ a :: S then g i else 0)
          = (if i = a then g i else 0) + (if i ∈ S then g i else 0) := by
      intro i _
      by_cases h1 : i = a
      · subst h1
        simp [List.mem_cons, hna]
      · by_cases h2 : i ∈ S <;> simp [List.mem_cons, h1, h2]
    rw [List.map_congr_left hkey, sum_map_add, sum_range_ite,
        if_pos (hlt a (List.mem_cons_self a S)),
        ih (List.nodup_cons.mp hS).2 (fun i hi => hlt i (List.mem_cons_of_mem a hi))]
    simp

/-- C7: the knapsack objective, whose linear coefficient for item `i` is
`-values[i]`, evaluates at the indicator vector of any item subset to the
negative of the subset's total value. -/
theorem C7_knapsack_objective (values : List ℤ) (S : List ℕ)
    (hS : S.Nodup) (hlt : ∀ i ∈ S, i < values.length) :
    evalLinear (knapsackObjLinear values) (fun i => if i ∈ S then 1 else 0)
      = -((S.map fun i => values.getD i 0).sum) := by
  unfold evalLinear knapsackObjLinear
  rw [List.map_map]
  have hkey : ∀ i ∈ List.range values.length,
      ((fun ic : ℕ × ℤ => ic.2 * (if ic.1 ∈ S then (1 : ℤ) else 0))
          ∘ fun i => (i, -(values.getD i 0))) i
        = if i ∈ S then -(values.getD i 0) else 0 := by
    intro i _
    show -(values.getD i 0) * (if i ∈ S then (1 : ℤ) else 0) = _
    by_cases h : i ∈ S <;> simp [h]
  rw [List.map_congr_left hkey,
      range_indicator_sum values.length (fun i => -(values.getD i 0)) S hS hlt]
  exact sum_map_neg S _

/-- C7 witness: items with values `[3, 5]`, subset `{1}`. -/
theorem C7_witness :
    ([(1 : ℕ)] : List ℕ).Nodup
    ∧ (∀ i ∈ ([(1 : ℕ)] : List ℕ), i < ([3, 5] : List ℤ).length)
    ∧ evalLinear (knapsackObjLinear [3, 5]) (fun i => if i ∈ ([(1 : ℕ)] : List ℕ) then 1 else 0)
        = -((([(1 : ℕ)] : List ℕ).map fun i => ([3, 5] : List ℤ).getD i 0).sum) :=
  ⟨by decide, by decide, C7_knapsack_objective [3, 5] [1] (by decide) (by decide)⟩

theorem drop_range_aux : ∀ (m n s : ℕ),
    (List.range' s n).drop m = List.range' (s + m) (n - m) := by
  intro m
  induction m with
  | zero =>
    intro n s
    simp
  | succ m ih =>
    intro n s
    cases n with
    | zero => simp
    | succ n =>
      rw [List.range'_succ s n 1, List.drop_succ_cons, ih n (s + 1)]
      congr 1 <;> omega

theorem mem_drop_range (n m j : ℕ) : j ∈ (List.range n).drop m ↔ m ≤ j ∧ j < n := by
  rw [List.range_eq_range', drop_range_aux, List.mem_range'_1]
  omega

/-- Membership in `combinations n`: exactly the ordered pairs `i < j < n`. -/
theorem mem_combinations (n : ℕ) (p : ℕ × ℕ) :
    p ∈ combinations n ↔ p.1 < p.2 ∧ p.2 < n := by
  unfold combinations
  rw [List.mem_flatMap]
  constructor
  · rintro ⟨i, hi, hp⟩
    rw [List.mem_map] at hp
    obtain ⟨j, hj, rfl⟩ := hp
    rw [mem_drop_range] at hj
    exact ⟨by omega, hj.2⟩
  · intro h
    refine ⟨p.1, ?_, ?_⟩
    · rw [List.mem_range]
      omega
    · rw [List.mem_map]
      refine ⟨p.2, ?_, rfl⟩
      rw [mem_drop_range]
      omega

/-- Decomposition of a partition-map entry into the three loops'
contributions. -/
theorem Q_partition_apply (n : ℕ) (edges : List (ℕ × ℕ)) (gamma : ℤ) (k : ℕ × ℕ) :
    Q_partition n edges gamma k
      = (edges.map fun e =>
            (if ((e.1, e.1) : ℕ × ℕ) = k then (1 : ℤ) else 0)
            + ((if ((e.2, e.2) : ℕ × ℕ) = k then (1 : ℤ) else 0)
              + (if ((e.1, e.2) : ℕ × ℕ) = k then (-2 : ℤ) else 0))).sum
        + ((List.range n).map fun i =>
            if ((i, i) : ℕ × ℕ) = k then gamma * (1 - (n : ℤ)) else 0).sum
        + (if k.1 < k.2 ∧ k.2 < n then 2 * gamma else 0) := by
  unfold Q_partition partitionUpdates penaltyUpdates partitionObjUpdates
  rw [applyUpdates_apply]
  show (0 : ℤ) + _ = _
  rw [zero_add, List.map_append, List.sum_append, List.map_append, List.sum_append,
      sum_map_flatMap, List.map_map, List.map_map]
  have hobj : ∀ e ∈ edges,
      (([(((e.1, e.1) : ℕ × ℕ), (1 : ℤ)), ((e.2, e.2), 1), ((e.1, e.2), -2)].map
          (contrib k)).sum)
        = (if ((e.1, e.1) : ℕ × ℕ) = k then (1 : ℤ) else 0)
          + ((if ((e.2, e.2) : ℕ × ℕ) = k then (1 : ℤ) else 0)
            + (if ((e.1, e.2) : ℕ × ℕ) = k then (-2 : ℤ) else 0)) := by
    intro e _
    simp [contrib]
  have hdiag : (contrib k ∘ fun i : ℕ => ((i, i), gamma * (1 - (n : ℤ))))
      = fun i : ℕ => if ((i, i) : ℕ × ℕ) = k then gamma * (1 - (n : ℤ)) else 0 := rfl
  have hcomb : (contrib k ∘ fun p : ℕ × ℕ => (p, 2 * gamma))
      = fun p : ℕ × ℕ => if p = k then 2 * gamma else 0 := rfl
  rw [List.map_congr_left hobj, hdiag, hcomb, combinations_ite_sum, add_assoc]

/-- Every listed edge's off-diagonal entry accumulates to `-2 + 2*gamma`. -/
theorem Q_partition_edge (n : ℕ) (edges : List (ℕ × ℕ)) (gamma : ℤ)
    (hE : ∀ e ∈ edges, e.1 < e.2 ∧ e.2 < n) (hnd : edges.Nodup)
    {e₀ : ℕ × ℕ} (he : e₀ ∈ edges) :
    Q_partition n edges gamma e₀ = -2 + 2 * gamma := by
  obtain ⟨u, v⟩ := e₀
  obtain ⟨huv, hvn⟩ := hE (u, v) he
  rw [Q_partition_apply]
  have hobj : ∀ e ∈ edges,
      (if ((e.1, e.1) : ℕ × ℕ) = (u, v) then (1 : ℤ) else 0)
        + ((if ((e.2, e.2) : ℕ × ℕ) = (u, v) then (1 : ℤ) else 0)
          + (if ((e.1, e.2) : ℕ × ℕ) = (u, v) then (-2 : ℤ) else 0))
      = if e = (u, v) then (-2 : ℤ) else 0 := by
    intro e he'
    obtain ⟨h12, h2n⟩ := hE e he'
    rw [if_neg (by simp [Prod.ext_iff]; omega), if_neg (by simp [Prod.ext_iff]; omega)]
    have : (((e.1, e.2) : ℕ × ℕ) = (u, v)) ↔ e = (u, v) := by
      constructor
      · intro h
        exact Prod.ext (congrArg Prod.fst h) (congrArg Prod.snd h)
      · intro h
        rw [h]
    rw [if_congr this rfl rfl]
    ring
  have hdiag : ∀ i ∈ List.range n,
      (if ((i, i) : ℕ × ℕ) = (u, v) then gamma * (1 - (n : ℤ)) else 0) = 0 := by
    intro i _
    rw [if_neg]
    intro h
    have h1 : i = u := congrArg Prod.fst h
    have h2 : i = v := congrArg Prod.snd h
    omega
  rw [List.map_congr_left hobj, List.map_congr_left hdiag, sum_map_ite_count,
      List.count_eq_one_of_mem hnd he, if_pos ⟨huv, hvn⟩]
  simp

/-- Every node's diagonal entry accumulates to
`degree(i) + gamma*(1 - n)`. -/
theorem Q_partition_diag (n : ℕ) (edges : List (ℕ × ℕ)) (gamma : ℤ)
    (hE : ∀ e ∈ edges, e.1 < e.2 ∧ e.2 < n) {i : ℕ} (hi : i < n) :
    Q_partition n edges gamma (i, i)
      = (degree edges i : ℤ) + gamma * (1 - (n : ℤ)) := by
  rw [Q_partition_apply]
  have hobj : ∀ e ∈ edges,
      (if ((e.1, e.1) : ℕ × ℕ) = (i, i) then (1 : ℤ) else 0)
        + ((if ((e.2, e.2) : ℕ × ℕ) = (i, i) then (1 : ℤ) else 0)
          + (if ((e.1, e.2) : ℕ × ℕ) = (i, i) then (-2 : ℤ) else 0))
      = if e.1 = i ∨ e.2 = i then (1 : ℤ) else 0 := by
    intro e he'
    obtain ⟨h12, h2n⟩ := hE e he'
    have c1 : (((e.1, e.1) : ℕ × ℕ) = (i, i)) ↔ e.1 = i := by
      simp [Prod.ext_iff]
    have c2 : (((e.2, e.2) : ℕ × ℕ) = (i, i)) ↔ e.2 = i := by
      simp [Prod.ext_iff]
    have c3 : (((e.1, e.2) : ℕ × ℕ) = (i, i)) ↔ (e.1 = i ∧ e.2 = i) := by
      simp [Prod.ext_iff]
    have hc3 : ¬(e.1 = i ∧ e.2 = i) := by omega
    rw [if_congr c1 rfl rfl, if_congr c2 rfl rfl, if_congr c3 rfl rfl, if_neg hc3]
    by_cases h1 : e.1 = i
    · rw [if_pos h1, if_neg (by omega), if_pos (Or.inl h1)]
      ring
    · rw [if_neg h1]
      by_cases h2 : e.2 = i
      · rw [if_pos h2, if_pos (Or.inr h2)]
        ring
      · rw [if_neg h2, if_neg (by tauto)]
        ring
  have hdiag : ∀ j ∈ List.range n,
      (if ((j, j) : ℕ × ℕ) = (i, i) then gamma * (1 - (n : ℤ)) else 0)
        = if j = i then gamma * (1 - (n : ℤ)) else 0 := by
    intro j _
    apply if_congr _ rfl rfl
    constructor
    · intro h
      exact congrArg Prod.fst h
    · intro h
      rw [h]
  rw [List.map_congr_left hobj, List.map_congr_left hdiag, sum_range_ite,
      if_pos hi, if_neg (by omega), sum_map_ite_countP]
  unfold degree
  ring

/-- C8: coefficients accumulate additively (appending an update for key `k`
adds its value to the existing entry), untouched keys stay 0, the final map
does not depend on the order of the updates, and for the graph-partition
encoder every edge's off-diagonal entry ends at `-2 + 2*gamma` while every
node's diagonal entry ends at `degree(i) + gamma*(1-n)`. -/
theorem C8_accumulation (n : ℕ) (gamma : ℤ) (edges : List (ℕ × ℕ))
    (hE : ∀ e ∈ edges, e.1 < e.2 ∧ e.2 < n) (hnd : edges.Nodup)
    (l' : List ((ℕ × ℕ) × ℤ)) (hperm : l'.Perm (partitionUpdates n edges gamma)) :
    (∀ (l : List ((ℕ × ℕ) × ℤ)) (Q : QMap) (k : ℕ × ℕ) (c : ℤ),
        applyUpdates Q (l ++ [(k, c)]) k = applyUpdates Q l k + c)
    ∧ (∀ (l : List ((ℕ × ℕ) × ℤ)) (k : ℕ × ℕ),
        k ∉ l.map Prod.fst → applyUpdates emptyQ l k = 0)
    ∧ applyUpdates emptyQ l' = Q_partition n edges gamma
    ∧ (∀ e ∈ edges, Q_partition n edges gamma e = -2 + 2 * gamma)
    ∧ (∀ i, i < n → Q_partition n edges gamma (i, i)
        = (degree edges i : ℤ) + gamma * (1 - (n : ℤ))) := by
  refine ⟨?_, ?_, ?_, fun e he => Q_partition_edge n edges gamma hE hnd he,
          fun i hi => Q_partition_diag n edges gamma hE hi⟩
  · intro l Q k c
    rw [applyUpdates_apply, applyUpdates_apply, List.map_append, List.sum_append]
    simp [contrib]
    ring
  · intro l k hk
    rw [applyUpdates_apply]
    have : ∀ kc ∈ l, contrib k kc = 0 := by
      intro kc hkc
      unfold contrib
      rw [if_neg]
      intro h
      exact hk (List.mem_map.mpr ⟨kc, hkc, h⟩)
    rw [List.map_congr_left this]
    simp [emptyQ]
  · funext k
    rw [applyUpdates_apply]
    unfold Q_partition
    rw [applyUpdates_apply, (hperm.map (contrib k)).sum_eq]

/-- C8 witness: a concrete 3-node path graph with `gamma = 5`, encoded from
a reversed update order. -/
theorem C8_witness :
    Q_partition 3 [(0, 1), (1, 2)] 5 (1, 1)
      = (degree [(0, 1), (1, 2)] 1 : ℤ) + 5 * (1 - (3 : ℤ)) :=
  (C8_accumulation 3 5 [(0, 1), (1, 2)] (by decide) (by decide)
      (partitionUpdates 3 [(0, 1), (1, 2)] 5).reverse
      (List.reverse_perm _)).2.2.2.2 1 (by norm_num)

/-- C10: with nodes `0..n-1` and edges listed smaller endpoint first, every
off-diagonal key of the partition coefficient map is an ordered pair
`(i, j)` with `i < j`, the key set has no duplicates, and each unordered
pair of distinct nodes occurs under exactly one key: `(i, j)` is a key and
`(j, i)` is not. -/
theorem C10_partition_keys (n : ℕ) (gamma : ℤ) (edges : List (ℕ × ℕ))
    (hE : ∀ e ∈ edges, e.1 < e.2 ∧ e.2 < n) :
    (∀ k ∈ keysOf (partitionUpdates n edges gamma), k.1 ≠ k.2 → k.1 < k.2)
    ∧ (keysOf (partitionUpdates n edges gamma)).Nodup
    ∧ (∀ i j : ℕ, i < j → j < n →
        (i, j) ∈ keysOf (partitionUpdates n edges gamma)
        ∧ (j, i) ∉ keysOf (partitionUpdates n edges gamma)) := by
  have hmem : ∀ k ∈ keysOf (partitionUpdates n edges gamma),
      k.1 = k.2 ∨ (k.1 < k.2 ∧ k.2 < n) := by
    intro k hk
    unfold keysOf partitionUpdates penaltyUpdates partitionObjUpdates at hk
    rw [List.mem_dedup, List.map_append, List.mem_append] at hk
    rcases hk with hk | hk
    · rw [List.mem_map] at hk
      obtain ⟨kc, hkc, rfl⟩ := hk
      rw [List.mem_flatMap] at hkc
      obtain ⟨e, he, hkc⟩ := hkc
      obtain ⟨h12, h2n⟩ := hE e he
      simp only [List.mem_cons, List.not_mem_nil, or_false] at hkc
      rcases hkc with h | h | h <;> subst h
      · left
        rfl
      · left
        rfl
      · right
        exact ⟨h12, h2n⟩
    · rw [List.map_append, List.mem_append] at hk
      rcases hk with hk | hk
      · rw [List.map_map, List.mem_map] at hk
        obtain ⟨i, _, rfl⟩ := hk
        left
        rfl
      · rw [List.map_map, List.mem_map] at hk
        obtain ⟨p, hp, rfl⟩ := hk
        right
        exact (mem_combinations n p).mp hp
  refine ⟨?_, List.nodup_dedup _, ?_⟩
  · intro k hk hne
    rcases hmem k hk with h | h
    · exact absurd h hne
    · exact h.1
  · intro i j hij hjn
    constructor
    · unfold keysOf partitionUpdates penaltyUpdates partitionObjUpdates
      rw [List.mem_dedup, List.map_append, List.mem_append]
      right
      rw [List.map_append, List.mem_append]
      right
      rw [List.map_map, List.mem_map]
      exact ⟨(i, j), (mem_combinations n (i, j)).mpr ⟨hij, hjn⟩, rfl⟩
    · intro h
      rcases hmem (j, i) h with h' | h'
      · simp at h'
        omega
      · simp at h'
        omega

/-- C10 witness on the 3-node path graph with `gamma = 5`. -/
theorem C10_witness :
    (0, 1) ∈ keysOf (partitionUpdates 3 [(0, 1), (1, 2)] 5)
    ∧ (1, 0) ∉ keysOf (partitionUpdates 3 [(0, 1), (1, 2)] 5) :=
  (C10_partition_keys 3 5 [(0, 1), (1, 2)] (by decide)).2.2 0 1
    (by norm_num) (by norm_num)

set_option maxHeartbeats 2000000 in
/-- C4: on the 5-node reference graph, the max-cut encoder produces exactly
the literal coefficient map of the getting-started notebook (same keys,
same values, no other entries), the minimum energy over binary assignments
is `-5`, and every minimum-energy assignment cuts exactly 5 edges. -/
theorem C4_maxcut_reference :
    (∀ k ∈ keysOf (maxcutUpdates edges5), k ∈ keysOf ex0Updates)
    ∧ (∀ k ∈ keysOf ex0Updates, k ∈ keysOf (maxcutUpdates edges5))
    ∧ (∀ k ∈ keysOf ex0Updates, Q_maxcut edges5 k = applyUpdates emptyQ ex0Updates k)
    ∧ (∃ x, IsBinary x ∧ energyUpd (maxcutUpdates edges5) x = -5
        ∧ num_cut_edges edges5 x = 5)
    ∧ (∀ x, IsBinary x →
        -5 ≤ energyUpd (maxcutUpdates edges5) x
        ∧ (energyUpd (maxcutUpdates edges5) x = -5 → num_cut_edges edges5 x = 5)) := by
  refine ⟨by decide, by decide, by decide, ?_, ?_⟩
  · refine ⟨fun i => if i = 2 ∨ i = 3 ∨ i = 5 then 1 else 0, fun i => ?_, by decide, by decide⟩
    by_cases h : i = 2 ∨ i = 3 ∨ i = 5 <;> simp [h]
  · intro x hx
    rcases hx 1 with h1 | h1 <;> rcases hx 2 with h2 | h2 <;> rcases hx 3 with h3 | h3 <;>
      rcases hx 4 with h4 | h4 <;> rcases hx 5 with h5 | h5 <;>
        simp [energyUpd, maxcutUpdates, edges5, num_cut_edges, h1, h2, h3, h4, h5]

/-- C6: the knapsack interpreter restricts the ranked sample set to the
feasible rows; it fails with exactly `No feasible solution found` if and
only if no feasible row remains, and otherwise returns, for the
minimum-energy feasible row, the selected items with their total value and
total weight. -/
theorem C6_knapsack_parse (values weights : List ℤ) (sampleset : List SampleRow)
    (hsorted : sampleset.Pairwise fun a b => a.energy ≤ b.energy) :
    (parseKnapsackOutput values weights sampleset
        = Except.error "No feasible solution found"
      ↔ sampleset.filter (fun row => row.isFeasible) = [])
    ∧ (∀ best rest, sampleset.filter (fun row => row.isFeasible) = best :: rest →
        best ∈ sampleset ∧ best.isFeasible = true
        ∧ (∀ r ∈ sampleset, r.isFeasible = true → best.energy ≤ r.energy)
        ∧ parseKnapsackOutput values weights sampleset
            = Except.ok
                (((selectedItems best.sample).map fun i => values.getD i 0).sum,
                 ((selectedItems best.sample).map fun i => weights.getD i 0).sum,
                 selectedItems best.sample,
                 best.energy)) := by
  constructor
  · unfold parseKnapsackOutput
    cases hf : sampleset.filter (fun row => row.isFeasible) with
    | nil => simp [hf]
    | cons b rest => simp [hf]
  · intro best rest hf
    have hmem : best ∈ sampleset.filter (fun row => row.isFeasible) := by
      rw [hf]
      exact List.mem_cons_self best rest
    obtain ⟨hmem', hfeas⟩ := List.mem_filter.mp hmem
    have hpf : (sampleset.filter (fun row => row.isFeasible)).Pairwise
        (fun a b => a.energy ≤ b.energy) := hsorted.filter _
    rw [hf, List.pairwise_cons] at hpf
    refine ⟨hmem', hfeas, ?_, ?_⟩
    · intro r hr hrf
      have : r ∈ sampleset.filter (fun row => row.isFeasible) :=
        List.mem_filter.mpr ⟨hr, hrf⟩
      rw [hf] at this
      rcases List.mem_cons.mp this with h | h
      · rw [h]
      · exact hpf.1 r h
    · unfold parseKnapsackOutput
      rw [hf]

/-- C6 witness: a ranked set whose lowest-energy row is infeasible; the
parser skips it and returns the feasible row's selection. -/
theorem C6_witness :
    parseKnapsackOutput [7] [3]
        [⟨[0], -10, false⟩, ⟨[1], -5, true⟩]
      = Except.ok
          (((selectedItems [1]).map fun i => ([7] : List ℤ).getD i 0).sum,
           ((selectedItems [1]).map fun i => ([3] : List ℤ).getD i 0).sum,
           selectedItems [1],
           -5) :=
  ((C6_knapsack_parse [7] [3] [⟨[0], -10, false⟩, ⟨[1], -5, true⟩]
      (by simp [List.pairwise_cons])).2
    ⟨[1], -5, true⟩ [] rfl).2.2.2

/-- C9: the toy-problem QUBO with `A = 4` has energy at least `-3` on every
binary assignment, and energy exactly `-3` precisely at the assignments
satisfying the encoded constraint `v + w = 1` with `t = 0`. -/
theorem C9_toy_minimum (x : ℕ → ℤ) (hx : IsBinary x) :
    -3 ≤ energyUpd toyUpdates x
    ∧ (energyUpd toyUpdates x = -3 ↔ x 1 + x 2 = 1 ∧ x 3 = 0) := by
  rcases hx 1 with h1 | h1 <;> rcases hx 2 with h2 | h2 <;> rcases hx 3 with h3 | h3 <;>
    simp [energyUpd, toyUpdates, toyA, h1, h2, h3]

/-- C9 witness at the assignment `v = 1, w = 0, t = 0`. -/
theorem C9_witness :
    -3 ≤ energyUpd toyUpdates (fun i => if i = 1 then (1 : ℤ) else 0)
    ∧ (energyUpd toyUpdates (fun i => if i = 1 then (1 : ℤ) else 0) = -3
        ↔ (if (1 : ℕ) = 1 then (1 : ℤ) else 0) + (if (2 : ℕ) = 1 then (1 : ℤ) else 0) = 1
          ∧ (if (3 : ℕ) = 1 then (1 : ℤ) else 0) = 0) :=
  C9_toy_minimum (fun i => if i = 1 then (1 : ℤ) else 0)
    (fun i => by by_cases h : i = 1 <;> simp [h])

end Dwave

